import Mathlib

/-!
Verification of the scoped-state override engine of `fabric/context_managers.py`
(TavFabric).  The Python module is shallowly embedded: the process-wide config
stores `env` and `output` become association lists inside a `Store`, each
context manager of the module becomes a `Scope` value, and the generator /
`with`-statement mechanics (enter, protected block, exit on the normal and the
exceptional path) become explicit state-passing functions that also record a
trace of enter/exit events.
-/

namespace Fabric

/-- Values held by the config store: strings (e.g. `env.cwd`), lists of
strings (`env.command_prefixes`), lists of `(value, behaviour, separator)`
triples (the per-variable accumulator entries under a `$VAR` key), and
booleans (e.g. `warn_only`). -/
inductive Value where
  | str : String → Value
  | strList : List String → Value
  | triples : List (String × String × String) → Value
  | boolV : Bool → Value
deriving DecidableEq, Repr

/-- Python exceptions that the embedded code can raise.  `userError` stands
for an arbitrary exception raised by a caller-supplied protected block. -/
inductive PyErr where
  | keyError : String → PyErr
  | valueError : String → PyErr
  | nameError : String → PyErr
  | typeError : String → PyErr
  | attributeError : String → PyErr
  | userError : String → PyErr
deriving DecidableEq, Repr

/-- Python truthiness of a config value (`if env.get('cwd')`): empty strings,
empty lists and `False` are falsy. -/
def valueTruthy : Value → Bool
  | .str s => !s.isEmpty
  | .strList l => !l.isEmpty
  | .triples l => !l.isEmpty
  | .boolV b => b

/-- First-match lookup in an association list (Python `d[k]` / `d.get(k)`). -/
def lookupKey {α : Type} : List (String × α) → String → Option α
  | [], _ => none
  | (k', v) :: rest, k => if k' = k then some v else lookupKey rest k

/-- Python `d[k] = v`: replace the first binding of `k` in place, or append a
new binding at the end if `k` is absent. -/
def setKey {α : Type} : List (String × α) → String → α → List (String × α)
  | [], k, v => [(k, v)]
  | (k', v') :: rest, k, v =>
      if k' = k then (k, v) :: rest else (k', v') :: setKey rest k v

/-- Python `d.update(upd)`: set every binding of `upd` into `d`, in order. -/
def updateMap {α : Type} (m upd : List (String × α)) : List (String × α) :=
  upd.foldl (fun acc kv => setKey acc kv.1 kv.2) m

/-- Membership test for a key of an association list. -/
def memKeyB {α : Type} (k : String) : List (String × α) → Bool
  | [] => false
  | (k', _) :: rest => if k' = k then true else memKeyB k rest

/-- The keys of an association list are pairwise distinct (Python keyword
argument dicts cannot repeat a key). -/
def nodupKeysB {α : Type} : List (String × α) → Bool
  | [] => true
  | (k, _) :: rest => !memKeyB k rest && nodupKeysB rest

/-- Membership test on a list of strings. -/
def memB (x : String) : List String → Bool
  | [] => false
  | y :: rest => if y = x then true else memB x rest

/-- The strings of a list are pairwise distinct. -/
def nodupStrB : List String → Bool
  | [] => true
  | x :: rest => !memB x rest && nodupStrB rest

/-- Order-preserving removal of duplicates, keeping first occurrences;
`seen` accumulates the names already emitted. -/
def dedupAcc : List String → List String → List String
  | [], _ => []
  | x :: rest, seen =>
      if memB x seen then dedupAcc rest seen else x :: dedupAcc rest (x :: seen)

/-- Order-preserving removal of duplicate strings. -/
def dedup (l : List String) : List String := dedupAcc l []

/-- A static alias table for the output-control namespace: an alias name maps
to its list of concrete group names. -/
abbrev AliasTbl := List (String × List String)

/-- Modelled from the spec: `fabric.state` is not among the sources; its
`output.expand_aliases` maps the caller-supplied group names to an ordered
sequence of concrete group names through a static alias table (single-level
expansion), passes unknown names through unchanged, and removes duplicates
while preserving order. -/
def expand_aliases (tbl : AliasTbl) (groups : List String) : List String :=
  dedup ((groups.map (fun g =>
    match lookupKey tbl g with
    | some concrete => concrete
    | none => [g])).flatten)

/-- The process-wide config store: `fabric.state.env` (arbitrary settings) and
`fabric.state.output` (the boolean output-control flags). -/
structure Store where
  env : List (String × Value)
  output : List (String × Bool)
deriving DecidableEq, Repr

/-- The `previous` snapshot dict captured by a scope at entry: either the
snapshot taken by `_setenv` (over `env`) or by `_set_output` (over
`output`). -/
inductive Snap where
  | envSnap : List (String × Value) → Snap
  | outSnap : List (String × Bool) → Snap
deriving DecidableEq, Repr

/-- Trace events: a successful scope entry recording its snapshot, and an
invocation of the scope's exit, with the flag telling whether the exit runs on
the exceptional path (`gen.throw`) or on normal completion. -/
inductive Evt where
  | enterEv : Snap → Evt
  | exitEv : Snap → Bool → Evt
deriving DecidableEq, Repr

/-- A context manager of the module, as the data its generator closes over:
`_setenv(**kwargs)` (used by `settings`, `cd`, `path`, `prefix` and the
per-variable accumulator) or `_set_output(groups, which)` (used by `show` and
`hide`). -/
inductive Scope where
  | setenvS : List (String × Value) → Scope
  | setOutputS : List String → Bool → Scope
deriving DecidableEq, Repr

/-- `show(*groups)`: a context manager built on `_set_output(groups, True)`. -/
def show_cm (groups : List String) : Scope := .setOutputS groups true

/-- `hide(*groups)`: a context manager built on `_set_output(groups, False)`. -/
def hide_cm (groups : List String) : Scope := .setOutputS groups false

/-- The snapshot-and-set loop at the head of `_setenv`: for each `(key, value)`
pair, record the key's current binding into `previous` when the key is present
(`if key in env: previous[key] = env[key]`), then set `env[key] = value`.
Returns the final `previous` dict and the mutated map. -/
def overrideEnter {α : Type} :
    List (String × α) → List (String × α) → List (String × α) →
      List (String × α) × List (String × α)
  | [], prev, m => (prev, m)
  | (k, v) :: rest, prev, m =>
      let prev' := match lookupKey m k with
        | some old => setKey prev k old
        | none => prev
      overrideEnter rest prev' (setKey m k v)

/-- The snapshot-and-set loop at the head of `_set_output`: for each expanded
group, `previous[group] = output[group]` (raising `KeyError` when the group is
not a key of `output`, leaving the mutations already made in place), then
`output[group] = which`. -/
def setOutputLoop :
    List String → Bool → List (String × Bool) → List (String × Bool) →
      Except PyErr (List (String × Bool)) × List (String × Bool)
  | [], _, prev, out => (.ok prev, out)
  | g :: rest, which, prev, out =>
      match lookupKey out g with
      | none => (.error (.keyError g), out)
      | some old => setOutputLoop rest which (setKey prev g old) (setKey out g which)

/-- Run a scope's generator up to its `yield`: the pre-yield code of `_setenv`
or `_set_output`.  On failure the partially mutated store is kept, and no
snapshot handle exists. -/
def enterScope (tbl : AliasTbl) (s : Scope) (st : Store) :
    Except PyErr Snap × Store :=
  match s with
  | .setenvS kvs =>
      let pe := overrideEnter kvs [] st.env
      (.ok (.envSnap pe.1), { st with env := pe.2 })
  | .setOutputS groups which =>
      match setOutputLoop (expand_aliases tbl groups) which [] st.output with
      | (.ok prev, out) => (.ok (.outSnap prev), { st with output := out })
      | (.error e, out) => (.error e, { st with output := out })

/-- Resume a scope's generator past its `yield`, normally (`gen.next`) or with
an exception thrown in (`gen.throw`).  `_setenv` restores inside a
`try/finally`, so `env.update(previous)` runs on both paths; `_set_output` has
no `try/finally` around its `yield`, so `output.update(previous)` runs only on
the normal path and is skipped when an exception is thrown in. -/
def exitScope (snap : Snap) (exceptional : Bool) (st : Store) : Store :=
  match snap with
  | .envSnap prev => { st with env := updateMap st.env prev }
  | .outSnap prev =>
      if exceptional then st else { st with output := updateMap st.output prev }

/-- A run state: the config store plus the trace of scope events so far. -/
structure RunSt where
  store : Store
  trace : List Evt
deriving DecidableEq, Repr

/-- Enter a scope and record the event on success. -/
def enterScopeT (tbl : AliasTbl) (s : Scope) (rs : RunSt) :
    Except PyErr Snap × RunSt :=
  match enterScope tbl s rs.store with
  | (.ok snap, st') => (.ok snap, ⟨st', rs.trace ++ [.enterEv snap]⟩)
  | (.error e, st') => (.error e, ⟨st', rs.trace⟩)

/-- Invoke a scope's exit and record the event. -/
def exitScopeT (snap : Snap) (exceptional : Bool) (rs : RunSt) : RunSt :=
  ⟨exitScope snap exceptional rs.store, rs.trace ++ [.exitEv snap exceptional]⟩

/-- A protected block: it may mutate the store and either complete normally or
raise an exception. -/
abbrev Body := RunSt → Except PyErr Unit × RunSt

/-- The result a protected block of fixed outcome produces. -/
def retOf : Option PyErr → Except PyErr Unit
  | none => .ok ()
  | some e => .error e

/-- A protected block that touches nothing and completes normally (`none`) or
raises the given exception. -/
def bodyRet (r : Option PyErr) : Body := fun rs => (retOf r, rs)

/-- One `with scope:` statement around a body, with the exact exit discipline
of `contextlib`'s generator context managers: if `__enter__` raises, the body
and the exit never run; a normal body resumes the generator normally; a body
exception is thrown into the generator and then re-raised. -/
def withScope (tbl : AliasTbl) (s : Scope) (body : Body) (rs : RunSt) :
    Except PyErr Unit × RunSt :=
  match enterScopeT tbl s rs with
  | (.error e, rs') => (.error e, rs')
  | (.ok snap, rs') =>
      match body rs' with
      | (.ok _, rs'') => (.ok (), exitScopeT snap false rs'')
      | (.error e, rs'') => (.error e, exitScopeT snap true rs'')

/-- A scope expression as written at a `with` statement: evaluated against the
current store when the statement is reached (so `cd`, `prefix` and the
accumulator read the store at that moment), possibly raising before any scope
exists. -/
abbrev ScopeBuilder := Store → Except PyErr Scope

/-- One `with builder(...):` statement: evaluate the scope expression first
(its failure aborts before anything is entered), then run the scope. -/
def withBuilt (tbl : AliasTbl) (b : ScopeBuilder) (body : Body) (rs : RunSt) :
    Except PyErr Unit × RunSt :=
  match b rs.store with
  | .error e => (.error e, rs)
  | .ok s => withScope tbl s body rs

/-- A sequence of textually nested `with` statements around one innermost
body. -/
def nestRun (tbl : AliasTbl) : List ScopeBuilder → Body → Body
  | [], body => body
  | b :: bs, body => withBuilt tbl b (nestRun tbl bs body)

/-- Per-scope side condition used by the restoration theorems: an `_setenv`
scope's keys are pairwise distinct (they come from a Python kwargs dict) and
all present in `env`; a `_set_output` scope is allowed only when `allowOut`
holds (its exceptional exit does not restore) and its expanded groups are all
present in `output`. -/
def scopeOKB (tbl : AliasTbl) (allowOut : Bool) (s : Scope) (st : Store) : Bool :=
  match s with
  | .setenvS kvs =>
      nodupKeysB kvs && kvs.all (fun p => (lookupKey st.env p.1).isSome)
  | .setOutputS groups _ =>
      allowOut &&
        (expand_aliases tbl groups).all (fun g => (lookupKey st.output g).isSome)

/-- `scopeOKB` holding along a nest of scope builders, each checked against
the store as it stands when that builder's `with` statement is reached. -/
def buildersOK (tbl : AliasTbl) (allowOut : Bool) :
    List ScopeBuilder → Store → Bool
  | [], _ => true
  | b :: bs, st =>
      match b st with
      | .error _ => false
      | .ok s =>
          scopeOKB tbl allowOut s st &&
            buildersOK tbl allowOut bs (enterScope tbl s st).2

/-- `scopeOKB` holding along a list of already-constructed scopes entered in
sequence (the shape `contextlib.nested` consumes). -/
def scopesOK (tbl : AliasTbl) (allowOut : Bool) : List Scope → Store → Bool
  | [], _ => true
  | s :: ss, st =>
      scopeOKB tbl allowOut s st && scopesOK tbl allowOut ss (enterScope tbl s st).2

/-- The store after entering a list of scopes in sequence. -/
def entersStore (tbl : AliasTbl) : List Scope → Store → Store
  | [], st => st
  | s :: ss, st => entersStore tbl ss (enterScope tbl s st).2

/-- The snapshots collected by entering a list of scopes in sequence (the
placeholder for a failed entry is never reached under `scopesOK`). -/
def entersSnaps (tbl : AliasTbl) : List Scope → Store → List Snap
  | [], _ => []
  | s :: ss, st =>
      (match (enterScope tbl s st).1 with
        | .ok sn => sn
        | .error _ => .envSnap []) :: entersSnaps tbl ss (enterScope tbl s st).2

/-- The enter phase of `contextlib.nested`: enter each manager left-to-right,
collecting the snapshots of those entered; stop at the first enter failure and
report it together with the snapshots entered so far. -/
def nestedEnter (tbl : AliasTbl) :
    List Scope → RunSt → (List Snap × Option PyErr) × RunSt
  | [], rs => (([], none), rs)
  | m :: ms, rs =>
      match enterScopeT tbl m rs with
      | (.error e, rs') => (([], some e), rs')
      | (.ok snap, rs') =>
          let r := nestedEnter tbl ms rs'
          ((snap :: r.1.1, r.1.2), r.2)

/-- The unwind phase of `contextlib.nested`: pop and invoke the collected
exits in reverse order of entry, each with the pending exception state. -/
def unwind (snaps : List Snap) (exceptional : Bool) (rs : RunSt) : RunSt :=
  snaps.reverse.foldl (fun rs s => exitScopeT s exceptional rs) rs

/-- `with contextlib.nested(*managers):` around a body: enter all managers in
order; on an enter failure unwind those entered with the exception pending and
re-raise; otherwise run the body, then unwind with the body's exception state
and propagate its outcome. -/
def runNestedCM (tbl : AliasTbl) (ms : List Scope) (body : Body) (rs : RunSt) :
    Except PyErr Unit × RunSt :=
  match nestedEnter tbl ms rs with
  | ((snaps, some e), rs') => (.error e, unwind snaps true rs')
  | ((snaps, none), rs') =>
      match body rs' with
      | (.ok _, rs'') => (.ok (), unwind snaps false rs'')
      | (.error e, rs'') => (.error e, unwind snaps true rs'')

/-- The manager list `settings(*args, **kwargs)` hands to `contextlib.nested`:
the given scopes in order, and, when keyword overrides are supplied, one
additional `_setenv(**kwargs)` manager appended last. -/
def settingsManagers (args : List Scope) (kwargs : List (String × Value)) :
    List Scope :=
  args ++ (if kwargs.isEmpty then [] else [Scope.setenvS kwargs])

/-- `with settings(*args, **kwargs):` around a body. -/
def settingsRun (tbl : AliasTbl) (args : List Scope)
    (kwargs : List (String × Value)) (body : Body) (rs : RunSt) :
    Except PyErr Unit × RunSt :=
  runNestedCM tbl (settingsManagers args kwargs) body rs

/-- Double-quote a value as `stringify_env_var` does. -/
def quote (v : String) : String := "\"" ++ v ++ "\""

/-- The `env.get(key, [])` read of `stringify_env_var`: the triples stored
under the key, or `[]` when the key is absent.  (A non-triples value under a
`$VAR` key would be a runtime type error at the `for` loop in the source and
is unreachable through `EnvManager`, the module's only writer of such keys.) -/
def getTriples (st : Store) (key : String) : List (String × String × String) :=
  match lookupKey st.env key with
  | some (.triples l) => l
  | _ => []

/-- One iteration of the `for value, behaviour, sep in ...` loop of
`stringify_env_var`: `append` yields `result + sep + quoted(value)`,
`prepend` yields `quoted(value) + sep + result`, anything else replaces the
result with `quoted(value)`. -/
def foldStep (result : String) (t : String × String × String) : String :=
  if t.2.1 = "append" then result ++ t.2.2 ++ quote t.1
  else if t.2.1 = "prepend" then quote t.1 ++ t.2.2 ++ result
  else quote t.1

/-- The fold at the heart of `stringify_env_var`: starting from the literal
`$VAR` reference, each `(value, behaviour, sep)` triple is folded in insertion
order. -/
def foldTriples (start : String) (ts : List (String × String × String)) : String :=
  ts.foldl foldStep start

/-- `stringify_env_var(var)`: render the shell-exportable assignment
`var=<folded>` from the triples stored under key `$var`. -/
def stringify_env_var (var : String) (st : Store) : String :=
  var ++ "=" ++ foldTriples ("$" ++ var) (getTriples st ("$" ++ var))

/-- The result of `EnvManager.__call__`: either the rendered string (read
mode, when no value is given) or a context manager to be entered. -/
inductive EnvCallResult where
  | rendered : String → EnvCallResult
  | scopeCM : Scope → EnvCallResult
deriving DecidableEq, Repr

/-- `EnvManager.__call__(value, behaviour, sep, reset)`: with no value, return
the rendered string; otherwise validate `behaviour` against
`{append, prepend, replace}` (raising `ValueError` before anything else
happens), extend the prior triples unless `reset` or `replace`, append the new
triple, and return the `_setenv` context manager over the `$var` key.  The
call itself never writes to the store. -/
def envManagerCall (st : Store) (var : String) (value : Option String)
    (behaviour : String) (sep : String) (reset : Bool) :
    Except PyErr EnvCallResult :=
  match value with
  | none => .ok (.rendered (stringify_env_var var st))
  | some v =>
      if behaviour = "append" ∨ behaviour = "prepend" ∨ behaviour = "replace" then
        let key := "$" ++ var
        let prior : Except PyErr (List (String × String × String)) :=
          if !reset && behaviour ≠ "replace" then
            match lookupKey st.env key with
            | some (.triples l) => .ok l
            | some _ => .error (.typeError "val.extend expects triples")
            | none => .ok []
          else .ok []
        match prior with
        | .error e => .error e
        | .ok l =>
            .ok (.scopeCM (.setenvS [(key, .triples (l ++ [(v, behaviour, sep)]))]))
      else .error (.valueError ("Unknown behaviour: " ++ behaviour))

/-- The space escaping `cd` performs: `path.replace(' ', '\ ')`. -/
def escapeSpaces (p : String) : String :=
  p.data.foldl (fun acc c => if c = ' ' then acc ++ "\\ " else acc.push c) ""

/-- Whether a path is absolute: `path.startswith('/')`. -/
def startsWithSlash (p : String) : Bool :=
  match p.data with
  | '/' :: _ => true
  | _ => false

/-- `cd(path)`: escape spaces; if `env.get('cwd')` is truthy and the path is
not absolute, join the current working directory and the path with a single
`/`, else take the path outright; return the `_setenv(cwd=new_cwd)` context
manager.  A truthy non-string `cwd` would make the `+` concatenation a
`TypeError`. -/
def cd (p : String) (st : Store) : Except PyErr Scope :=
  let q := escapeSpaces p
  match lookupKey st.env "cwd" with
  | some v =>
      if valueTruthy v && !startsWithSlash q then
        match v with
        | .str d => .ok (.setenvS [("cwd", .str (d ++ "/" ++ q))])
        | _ => .error (.typeError "cannot concatenate to cwd")
      else .ok (.setenvS [("cwd", .str q)])
  | none => .ok (.setenvS [("cwd", .str q)])

/-- `prefix(command)`: read `env.command_prefixes` (an `AttributeError` if the
key is absent, a `TypeError` if it is not a list) and return the
`_setenv(command_prefixes=env.command_prefixes + [command])` context
manager. -/
def cmdPrefixCm (command : String) (st : Store) : Except PyErr Scope :=
  match lookupKey st.env "command_prefixes" with
  | some (.strList l) =>
      .ok (.setenvS [("command_prefixes", .strList (l ++ [command]))])
  | some _ => .error (.typeError "can only concatenate list")
  | none => .error (.attributeError "command_prefixes")

/-- The names bound at module level in `fabric/context_managers.py`: its
imports (`os`, `sys`, `contextmanager`, `nested`, `env`, `output`, `win32`,
and `termios`/`tty` on non-Windows) and its own definitions.  `warn` is not
among them. -/
def contextManagersGlobals : List String :=
  ["os", "sys", "contextmanager", "nested", "env", "output", "win32",
   "termios", "tty", "_set_output", "show", "hide", "_setenv",
   "stringify_env_var", "EnvManager", "settings", "cd", "path", "prefix",
   "char_buffered"]

/-- A representative list of Python built-in names (the final scope of name
resolution); `warn` is not a Python built-in. -/
def pythonBuiltins : List String :=
  ["abs", "all", "any", "bool", "dict", "enumerate", "filter", "float",
   "frozenset", "getattr", "hasattr", "int", "isinstance", "len", "list",
   "map", "max", "min", "object", "open", "print", "range", "repr", "set",
   "setattr", "sorted", "str", "sum", "tuple", "type", "zip", "ValueError",
   "TypeError", "KeyError", "NameError", "AttributeError", "Exception",
   "True", "False", "None"]

/-- Whether a bare name used inside a function of `context_managers` resolves
(module globals, then built-ins; the functions in question bind no matching
local). -/
def resolvesInContextManagers (name : String) : Bool :=
  memB name contextManagersGlobals || memB name pythonBuiltins

/-- `path(path, behavior)`: its first statement calls `warn(...)`, so the name
`warn` is resolved before anything else; only if that resolution succeeded
would the `_setenv(path=path, path_behavior=behavior)` context manager be
constructed. -/
def path_cm (p : String) (behavior : String) : Except PyErr Scope :=
  if resolvesInContextManagers "warn" then
    .ok (.setenvS [("path", .str p), ("path_behavior", .str behavior)])
  else .error (.nameError "warn")

/-! Association-list lemmas.  `setKey` replaces an existing binding in place,
so restoring a key to the value it held yields the original list on the nose;
these lemmas make that precise and culminate in `overrideEnter_restore`: the
`_setenv` snapshot loop, followed by `update(previous)`, is the identity on
maps whose overridden keys were all present. -/

theorem lookupKey_none_iff_memKeyB {α : Type} (m : List (String × α)) (k : String) :
    lookupKey m k = none ↔ memKeyB k m = false := by
  induction m with
  | nil => simp [lookupKey, memKeyB]
  | cons hd tl ih =>
    obtain ⟨k0, v0⟩ := hd
    by_cases h0 : k0 = k <;> simp [lookupKey, memKeyB, h0, ih]

theorem lookup_setKey {α : Type} (m : List (String × α)) (k k' : String) (v : α) :
    lookupKey (setKey m k v) k' = if k = k' then some v else lookupKey m k' := by
  induction m with
  | nil => simp [setKey, lookupKey]
  | cons hd tl ih =>
    obtain ⟨k0, v0⟩ := hd
    by_cases h0 : k0 = k
    · subst h0
      by_cases hk : k0 = k' <;> simp [setKey, lookupKey, hk]
    · by_cases hk : k0 = k'
      · subst hk
        have : ¬ k = k0 := fun h => h0 h.symm
        simp [setKey, lookupKey, h0, this]
      · simp [setKey, lookupKey, h0, hk, ih]

theorem setKey_self {α : Type} (m : List (String × α)) (k : String) (v : α)
    (h : lookupKey m k = some v) : setKey m k v = m := by
  induction m with
  | nil => simp [lookupKey] at h
  | cons hd tl ih =>
    obtain ⟨k0, v0⟩ := hd
    by_cases h0 : k0 = k
    · subst h0
      simp [lookupKey] at h
      simp [setKey, h]
    · simp [lookupKey, h0] at h
      simp [setKey, h0, ih h]

theorem setKey_absent {α : Type} (m : List (String × α)) (k : String) (v : α)
    (h : memKeyB k m = false) : setKey m k v = m ++ [(k, v)] := by
  induction m with
  | nil => simp [setKey]
  | cons hd tl ih =>
    obtain ⟨k0, v0⟩ := hd
    by_cases h0 : k0 = k
    · simp [memKeyB, h0] at h
    · simp [memKeyB, h0] at h
      simp [setKey, h0, ih h]

theorem setKey_setKey_same {α : Type} (m : List (String × α)) (k : String) (v w : α) :
    setKey (setKey m k v) k w = setKey m k w := by
  induction m with
  | nil => simp [setKey]
  | cons hd tl ih =>
    obtain ⟨k0, v0⟩ := hd
    by_cases h0 : k0 = k <;> simp [setKey, h0, ih]

theorem setKey_comm {α : Type} (m : List (String × α)) (k k' : String) (v w : α)
    (hne : k ≠ k') (hk : (lookupKey m k).isSome) :
    setKey (setKey m k v) k' w = setKey (setKey m k' w) k v := by
  induction m with
  | nil => simp [lookupKey] at hk
  | cons hd tl ih =>
    obtain ⟨k0, v0⟩ := hd
    by_cases h0 : k0 = k
    · subst h0
      have h1 : ¬ k0 = k' := hne
      simp [setKey, h1]
    · by_cases h1 : k0 = k'
      · subst h1
        have hx : ¬ k0 = k := fun h => hne h.symm
        simp [setKey, h0, hx]
      · simp [lookupKey, h0] at hk
        simp [setKey, h0, h1, ih hk]

theorem updateMap_nil {α : Type} (m : List (String × α)) : updateMap m [] = m := rfl

theorem updateMap_cons {α : Type} (m : List (String × α)) (k : String) (v : α)
    (l : List (String × α)) :
    updateMap m ((k, v) :: l) = updateMap (setKey m k v) l := rfl

theorem updateMap_append {α : Type} (m l l' : List (String × α)) :
    updateMap m (l ++ l') = updateMap (updateMap m l) l' := by
  simp [updateMap, List.foldl_append]

theorem memKeyB_append {α : Type} (k : String) (l l' : List (String × α)) :
    memKeyB k (l ++ l') = (memKeyB k l || memKeyB k l') := by
  induction l with
  | nil => simp [memKeyB]
  | cons hd tl ih =>
    obtain ⟨k0, v0⟩ := hd
    by_cases h0 : k0 = k <;> simp [memKeyB, h0, ih]

theorem updateMap_setKey_comm {α : Type} (l : List (String × α))
    (m : List (String × α)) (k : String) (v : α)
    (hk : (lookupKey m k).isSome) (hmem : memKeyB k l = false) :
    updateMap (setKey m k v) l = setKey (updateMap m l) k v := by
  induction l generalizing m with
  | nil => rfl
  | cons hd tl ih =>
    obtain ⟨k1, w⟩ := hd
    by_cases h1 : k1 = k
    · simp [memKeyB, h1] at hmem
    · simp [memKeyB, h1] at hmem
      have hne : k ≠ k1 := fun h => h1 h.symm
      have hk' : (lookupKey (setKey m k1 w) k).isSome := by
        rw [lookup_setKey]
        simp [h1, hk]
      calc updateMap (setKey m k v) ((k1, w) :: tl)
          = updateMap (setKey (setKey m k v) k1 w) tl := rfl
        _ = updateMap (setKey (setKey m k1 w) k v) tl := by
              rw [setKey_comm m k k1 v w hne hk]
        _ = setKey (updateMap (setKey m k1 w) tl) k v := ih (setKey m k1 w) hk' hmem
        _ = setKey (updateMap m ((k1, w) :: tl)) k v := rfl

theorem lookup_updateMap {α : Type} (l : List (String × α))
    (m : List (String × α)) (k : String) (hmem : memKeyB k l = false) :
    lookupKey (updateMap m l) k = lookupKey m k := by
  induction l generalizing m with
  | nil => rfl
  | cons hd tl ih =>
    obtain ⟨k1, w⟩ := hd
    by_cases h1 : k1 = k
    · simp [memKeyB, h1] at hmem
    · simp [memKeyB, h1] at hmem
      calc lookupKey (updateMap m ((k1, w) :: tl)) k
          = lookupKey (updateMap (setKey m k1 w) tl) k := rfl
        _ = lookupKey (setKey m k1 w) k := ih (setKey m k1 w) hmem
        _ = lookupKey m k := by rw [lookup_setKey]; simp [h1]

theorem memKeyB_false_of_nodup_head {α : Type} (k : String) (v : α)
    (rest : List (String × α)) (h : nodupKeysB ((k, v) :: rest) = true) :
    memKeyB k rest = false ∧ nodupKeysB rest = true := by
  simp [nodupKeysB, Bool.and_eq_true] at h
  exact ⟨by simp [h.1], h.2⟩

theorem ne_of_memKeyB_false {α : Type} (k : String) (l : List (String × α))
    (h : memKeyB k l = false) : ∀ p ∈ l, p.1 ≠ k := by
  induction l with
  | nil => simp
  | cons hd tl ih =>
    obtain ⟨k0, v0⟩ := hd
    by_cases h0 : k0 = k
    · simp [memKeyB, h0] at h
    · simp [memKeyB, h0] at h
      intro p hp
      rcases List.mem_cons.mp hp with heq | hmem
      · subst heq; exact h0
      · exact ih h p hmem

/-- The central restoration lemma: running the `_setenv` snapshot-and-set loop
over pairwise-distinct keys that are all present in the map, and then applying
`update(previous)` to the mutated map, reproduces the original map exactly
(generalised over an initial `previous` dict disjoint from the keys). -/
theorem overrideEnter_restore {α : Type} (kvs : List (String × α)) :
    ∀ (prev0 m : List (String × α)),
      nodupKeysB kvs = true →
      (∀ p ∈ kvs, (lookupKey m p.1).isSome) →
      (∀ p ∈ kvs, memKeyB p.1 prev0 = false) →
      updateMap (overrideEnter kvs prev0 m).2 (overrideEnter kvs prev0 m).1 =
        updateMap m prev0 := by
  induction kvs with
  | nil => intro prev0 m _ _ _; rfl
  | cons hd rest ih =>
    intro prev0 m hnd hp hdisj
    obtain ⟨k, v⟩ := hd
    obtain ⟨hmem, hnd'⟩ := memKeyB_false_of_nodup_head k v rest hnd
    have hkp : (lookupKey m k).isSome := hp (k, v) (List.mem_cons_self _ _)
    obtain ⟨old, hold⟩ := Option.isSome_iff_exists.mp hkp
    have hprev0 : memKeyB k prev0 = false := hdisj (k, v) (List.mem_cons_self _ _)
    have hstep : overrideEnter ((k, v) :: rest) prev0 m =
        overrideEnter rest (setKey prev0 k old) (setKey m k v) := by
      simp [overrideEnter, hold]
    rw [hstep]
    have hrest_ne : ∀ p ∈ rest, p.1 ≠ k := ne_of_memKeyB_false k rest hmem
    have hp' : ∀ p ∈ rest, (lookupKey (setKey m k v) p.1).isSome := by
      intro p hpmem
      rw [lookup_setKey]
      by_cases hkp1 : k = p.1
      · simp [hkp1]
      · simp [hkp1]
        exact hp p (List.mem_cons_of_mem _ hpmem)
    have hdisj' : ∀ p ∈ rest, memKeyB p.1 (setKey prev0 k old) = false := by
      intro p hpmem
      rw [setKey_absent prev0 k old hprev0, memKeyB_append]
      have h1 : memKeyB p.1 prev0 = false := hdisj p (List.mem_cons_of_mem _ hpmem)
      have h2 : memKeyB p.1 [(k, old)] = false := by
        have : k ≠ p.1 := fun h => hrest_ne p hpmem h.symm
        simp [memKeyB, this]
      rw [h1, h2]
      rfl
    rw [ih (setKey prev0 k old) (setKey m k v) hnd' hp' hdisj']
    rw [setKey_absent prev0 k old hprev0, updateMap_append]
    rw [updateMap_setKey_comm prev0 m k v hkp hprev0]
    have hfinal : updateMap (setKey (updateMap m prev0) k v) [(k, old)] =
        setKey (updateMap m prev0) k old := by
      rw [updateMap_cons, updateMap_nil, setKey_setKey_same]
    rw [hfinal]
    apply setKey_self
    rw [lookup_updateMap prev0 m k hprev0]
    exact hold

/-! Alias expansion produces duplicate-free group lists, and the
`_set_output` entry loop agrees with the generic snapshot loop when every
group is present; together with `overrideEnter_restore` this gives exact
restoration for both scope kinds. -/

theorem memB_dedupAcc_of_seen (l : List String) :
    ∀ (seen : List String) (x : String), memB x seen = true →
      memB x (dedupAcc l seen) = false := by
  induction l with
  | nil => intro seen x _; rfl
  | cons y rest ih =>
    intro seen x hx
    by_cases hy : memB y seen = true
    · simp [dedupAcc, hy]
      exact ih seen x hx
    · simp [dedupAcc, hy]
      have hne : ¬ y = x := by
        intro heq; subst heq; rw [hx] at hy; exact hy rfl
      simp [memB, hne]
      exact ih (y :: seen) x (by simp [memB]; right; exact hx)

theorem nodupStrB_dedupAcc (l : List String) :
    ∀ seen : List String, nodupStrB (dedupAcc l seen) = true := by
  induction l with
  | nil => intro seen; rfl
  | cons y rest ih =>
    intro seen
    by_cases hy : memB y seen = true
    · simp [dedupAcc, hy, ih seen]
    · simp [dedupAcc, hy]
      simp [nodupStrB, Bool.and_eq_true]
      constructor
      · have hmem : memB y (y :: seen) = true := by simp [memB]
        simp [memB_dedupAcc_of_seen rest (y :: seen) y hmem]
      · exact ih (y :: seen)

theorem nodupStrB_dedup (l : List String) : nodupStrB (dedup l) = true :=
  nodupStrB_dedupAcc l []

theorem memKeyB_map_const {α : Type} (k : String) (w : α) (gs : List String) :
    memKeyB k (gs.map (fun g => (g, w))) = memB k gs := by
  induction gs with
  | nil => rfl
  | cons g rest ih =>
    by_cases hg : g = k <;> simp [memKeyB, memB, hg, ih]

theorem nodupKeysB_map_const {α : Type} (w : α) (gs : List String) :
    nodupKeysB (gs.map (fun g => (g, w))) = nodupStrB gs := by
  induction gs with
  | nil => rfl
  | cons g rest ih =>
    simp [nodupKeysB, nodupStrB, memKeyB_map_const, ih]

theorem setOutputLoop_eq_overrideEnter (gs : List String) (which : Bool) :
    ∀ (prev out : List (String × Bool)),
      (∀ g ∈ gs, (lookupKey out g).isSome) →
      setOutputLoop gs which prev out =
        (.ok (overrideEnter (gs.map (fun g => (g, which))) prev out).1,
          (overrideEnter (gs.map (fun g => (g, which))) prev out).2) := by
  induction gs with
  | nil => intro prev out _; rfl
  | cons g rest ih =>
    intro prev out hp
    obtain ⟨old, hold⟩ :=
      Option.isSome_iff_exists.mp (hp g (List.mem_cons_self _ _))
    have hstep1 : setOutputLoop (g :: rest) which prev out =
        setOutputLoop rest which (setKey prev g old) (setKey out g which) := by
      simp [setOutputLoop, hold]
    have hstep2 : overrideEnter ((g :: rest).map (fun g => (g, which))) prev out =
        overrideEnter (rest.map (fun g => (g, which)))
          (setKey prev g old) (setKey out g which) := by
      simp [overrideEnter, hold]
    rw [hstep1, hstep2]
    apply ih
    intro g' hg'
    rw [lookup_setKey]
    by_cases hgg : g = g'
    · simp [hgg]
    · simp [hgg]
      exact hp g' (List.mem_cons_of_mem _ hg')

/-! Single-scope entry/exit characterisations. -/

theorem enterScope_setenv (tbl : AliasTbl) (kvs : List (String × Value)) (st : Store) :
    enterScope tbl (.setenvS kvs) st =
      (.ok (.envSnap (overrideEnter kvs [] st.env).1),
        { st with env := (overrideEnter kvs [] st.env).2 }) := rfl

theorem setenv_exit_restore (kvs : List (String × Value)) (st : Store) (b : Bool)
    (hnd : nodupKeysB kvs = true)
    (hp : ∀ p ∈ kvs, (lookupKey st.env p.1).isSome) :
    exitScope (.envSnap (overrideEnter kvs [] st.env).1) b
      { st with env := (overrideEnter kvs [] st.env).2 } = st := by
  have hr := overrideEnter_restore kvs [] st.env hnd hp (fun p _ => rfl)
  simp [exitScope]
  rw [hr]
  rfl

theorem enterScope_setOutput (tbl : AliasTbl) (groups : List String) (which : Bool)
    (st : Store)
    (hp : ∀ g ∈ expand_aliases tbl groups, (lookupKey st.output g).isSome) :
    enterScope tbl (.setOutputS groups which) st =
      (.ok (.outSnap (overrideEnter
          ((expand_aliases tbl groups).map (fun g => (g, which))) [] st.output).1),
        { st with output := (overrideEnter
          ((expand_aliases tbl groups).map (fun g => (g, which))) [] st.output).2 }) := by
  simp only [enterScope]
  rw [setOutputLoop_eq_overrideEnter (expand_aliases tbl groups) which [] st.output hp]

theorem setOutput_exit_restore (tbl : AliasTbl) (groups : List String) (which : Bool)
    (st : Store)
    (hp : ∀ g ∈ expand_aliases tbl groups, (lookupKey st.output g).isSome) :
    exitScope (.outSnap (overrideEnter
        ((expand_aliases tbl groups).map (fun g => (g, which))) [] st.output).1) false
      { st with output := (overrideEnter
        ((expand_aliases tbl groups).map (fun g => (g, which))) [] st.output).2 } = st := by
  have hnd : nodupKeysB ((expand_aliases tbl groups).map (fun g => (g, which))) = true := by
    rw [nodupKeysB_map_const]
    exact nodupStrB_dedup _
  have hp' : ∀ p ∈ (expand_aliases tbl groups).map (fun g => (g, which)),
      (lookupKey st.output p.1).isSome := by
    intro p hpmem
    obtain ⟨g, hg, rfl⟩ := List.mem_map.mp hpmem
    exact hp g hg
  have hr := overrideEnter_restore
    ((expand_aliases tbl groups).map (fun g => (g, which))) [] st.output hnd hp'
    (fun p _ => rfl)
  simp [exitScope]
  rw [hr]
  rfl

/-! The nesting theorem: a nest of `with` statements whose scopes satisfy
`buildersOK` enters each scope once, runs the innermost body, and unwinds in
reverse order, restoring the store exactly; the trace is the palindrome
`enters ++ reverse exits`. -/

theorem withBuilt_ok (tbl : AliasTbl) (b : ScopeBuilder) (s : Scope)
    (body : Body) (rs : RunSt) (h : b rs.store = .ok s) :
    withBuilt tbl b body rs = withScope tbl s body rs := by
  simp [withBuilt, h]

theorem enterScopeT_of_enter (tbl : AliasTbl) (s : Scope) (rs : RunSt)
    (snap : Snap) (st' : Store) (h : enterScope tbl s rs.store = (.ok snap, st')) :
    enterScopeT tbl s rs = (.ok snap, ⟨st', rs.trace ++ [.enterEv snap]⟩) := by
  simp [enterScopeT, h]

theorem nestRun_palindrome (tbl : AliasTbl) (bs : List ScopeBuilder) :
    ∀ (st : Store) (tr : List Evt) (r : Option PyErr),
      buildersOK tbl r.isNone bs st = true →
      ∃ snaps : List Snap, snaps.length = bs.length ∧
        nestRun tbl bs (bodyRet r) ⟨st, tr⟩ =
          (retOf r, ⟨st, (tr ++ snaps.map Evt.enterEv) ++
            (snaps.map (fun s => Evt.exitEv s r.isSome)).reverse⟩) := by
  induction bs with
  | nil =>
    intro st tr r _
    exact ⟨[], rfl, by simp [nestRun, bodyRet]⟩
  | cons b bs ih =>
    intro st tr r hok
    simp only [buildersOK] at hok
    cases hbs : b st with
    | error e => rw [hbs] at hok; exact absurd hok (by simp)
    | ok s =>
      rw [hbs, Bool.and_eq_true] at hok
      obtain ⟨hsOK, hrest⟩ := hok
      cases s with
      | setenvS kvs =>
        simp only [scopeOKB, Bool.and_eq_true, List.all_eq_true] at hsOK
        obtain ⟨hnd, hp⟩ := hsOK
        have henter : enterScope tbl (.setenvS kvs) st =
            (.ok (.envSnap (overrideEnter kvs [] st.env).1),
              { st with env := (overrideEnter kvs [] st.env).2 }) := rfl
        have hrest' : buildersOK tbl r.isNone bs
            { st with env := (overrideEnter kvs [] st.env).2 } = true := by
          rw [henter] at hrest
          exact hrest
        obtain ⟨snaps', hlen, hrun⟩ := ih
          { st with env := (overrideEnter kvs [] st.env).2 }
          (tr ++ [Evt.enterEv (.envSnap (overrideEnter kvs [] st.env).1)]) r hrest'
        refine ⟨.envSnap (overrideEnter kvs [] st.env).1 :: snaps', by simp [hlen], ?_⟩
        have hstep : nestRun tbl (b :: bs) (bodyRet r) ⟨st, tr⟩ =
            withScope tbl (.setenvS kvs) (nestRun tbl bs (bodyRet r)) ⟨st, tr⟩ :=
          withBuilt_ok tbl b _ _ ⟨st, tr⟩ hbs
        rw [hstep, withScope,
          enterScopeT_of_enter tbl _ ⟨st, tr⟩ _ _ henter]
        dsimp only
        rw [hrun]
        have hrestore := setenv_exit_restore kvs st r.isSome hnd hp
        cases r with
        | none =>
          simp only [retOf, exitScopeT]
          simp only [Option.isSome_none] at hrestore ⊢
          rw [hrestore]
          simp [List.reverse_cons, List.append_assoc]
        | some e =>
          simp only [retOf, exitScopeT]
          simp only [Option.isSome_some] at hrestore ⊢
          rw [hrestore]
          simp [List.reverse_cons, List.append_assoc]
      | setOutputS groups which =>
        simp only [scopeOKB, Bool.and_eq_true, List.all_eq_true] at hsOK
        obtain ⟨hallow, hp⟩ := hsOK
        have hr : r = none := by
          cases r with
          | none => rfl
          | some e => simp at hallow
        subst hr
        have henter := enterScope_setOutput tbl groups which st hp
        have hrest' : buildersOK tbl true bs
            { st with output := (overrideEnter
              ((expand_aliases tbl groups).map (fun g => (g, which))) [] st.output).2 }
            = true := by
          rw [henter] at hrest
          exact hrest
        obtain ⟨snaps', hlen, hrun⟩ := ih
          { st with output := (overrideEnter
            ((expand_aliases tbl groups).map (fun g => (g, which))) [] st.output).2 }
          (tr ++ [Evt.enterEv (.outSnap (overrideEnter
            ((expand_aliases tbl groups).map (fun g => (g, which))) [] st.output).1)])
          none hrest'
        refine ⟨.outSnap (overrideEnter
          ((expand_aliases tbl groups).map (fun g => (g, which))) [] st.output).1
          :: snaps', by simp [hlen], ?_⟩
        have hstep : nestRun tbl (b :: bs) (bodyRet none) ⟨st, tr⟩ =
            withScope tbl (.setOutputS groups which)
              (nestRun tbl bs (bodyRet none)) ⟨st, tr⟩ :=
          withBuilt_ok tbl b _ _ ⟨st, tr⟩ hbs
        rw [hstep, withScope,
          enterScopeT_of_enter tbl _ ⟨st, tr⟩ _ _ henter]
        dsimp only
        rw [hrun]
        have hrestore := setOutput_exit_restore tbl groups which st hp
        simp only [retOf, exitScopeT]
        rw [hrestore]
        simp [List.reverse_cons, List.append_assoc]

/-! Lemmas about `contextlib.nested` as used by `settings`: the enter phase
under `scopesOK`, the enter phase hitting a scope that fails to enter, and the
unwind phase restoring the store while emitting exits in reverse order. -/

theorem enterScope_ok_of_scopeOKB (tbl : AliasTbl) (a : Bool) (s : Scope)
    (st : Store) (h : scopeOKB tbl a s st = true) :
    ∃ snap st1, enterScope tbl s st = (.ok snap, st1) := by
  cases s with
  | setenvS kvs => exact ⟨_, _, rfl⟩
  | setOutputS groups which =>
    simp only [scopeOKB, Bool.and_eq_true, List.all_eq_true] at h
    exact ⟨_, _, enterScope_setOutput tbl groups which st h.2⟩

theorem nestedEnter_nil (tbl : AliasTbl) (rs : RunSt) :
    nestedEnter tbl [] rs = (([], none), rs) := rfl

theorem nestedEnter_cons_ok (tbl : AliasTbl) (m : Scope) (ms : List Scope)
    (rs : RunSt) (snap : Snap) (rs' : RunSt)
    (h : enterScopeT tbl m rs = (.ok snap, rs')) :
    nestedEnter tbl (m :: ms) rs =
      ((snap :: (nestedEnter tbl ms rs').1.1, (nestedEnter tbl ms rs').1.2),
        (nestedEnter tbl ms rs').2) := by
  simp [nestedEnter, h]

theorem nestedEnter_cons_err (tbl : AliasTbl) (m : Scope) (ms : List Scope)
    (rs : RunSt) (e : PyErr) (rs' : RunSt)
    (h : enterScopeT tbl m rs = (.error e, rs')) :
    nestedEnter tbl (m :: ms) rs = (([], some e), rs') := by
  simp [nestedEnter, h]

theorem nestedEnter_ok (tbl : AliasTbl) (ms : List Scope) :
    ∀ (st : Store) (tr : List Evt) (a : Bool), scopesOK tbl a ms st = true →
      nestedEnter tbl ms ⟨st, tr⟩ =
        ((entersSnaps tbl ms st, none),
          ⟨entersStore tbl ms st, tr ++ (entersSnaps tbl ms st).map Evt.enterEv⟩) := by
  induction ms with
  | nil => intro st tr a _; simp [nestedEnter_nil, entersSnaps, entersStore]
  | cons m ms ih =>
    intro st tr a hok
    simp only [scopesOK, Bool.and_eq_true] at hok
    obtain ⟨hm, hrest⟩ := hok
    obtain ⟨snap, st1, hent⟩ := enterScope_ok_of_scopeOKB tbl a m st hm
    have hrest' : scopesOK tbl a ms st1 = true := by
      rw [hent] at hrest
      exact hrest
    rw [nestedEnter_cons_ok tbl m ms ⟨st, tr⟩ snap ⟨st1, tr ++ [Evt.enterEv snap]⟩
      (enterScopeT_of_enter tbl m ⟨st, tr⟩ snap st1 hent)]
    rw [ih st1 (tr ++ [Evt.enterEv snap]) a hrest']
    simp only [entersSnaps, entersStore, hent]
    simp [List.append_assoc]

theorem nestedEnter_fail (tbl : AliasTbl) (pre : List Scope) :
    ∀ (st : Store) (tr : List Evt), scopesOK tbl false pre st = true →
      ∀ (g : String) (w : Bool) (rest : List Scope),
        expand_aliases tbl [g] = [g] →
        lookupKey st.output g = none →
        nestedEnter tbl (pre ++ (Scope.setOutputS [g] w) :: rest) ⟨st, tr⟩ =
          ((entersSnaps tbl pre st, some (.keyError g)),
            ⟨entersStore tbl pre st,
              tr ++ (entersSnaps tbl pre st).map Evt.enterEv⟩) := by
  induction pre with
  | nil =>
    intro st tr _ g w rest hexp hg
    have hent : enterScope tbl (Scope.setOutputS [g] w) st =
        (.error (.keyError g), st) := by
      simp only [enterScope, hexp, setOutputLoop, hg]
    have hentT : enterScopeT tbl (Scope.setOutputS [g] w) ⟨st, tr⟩ =
        (.error (.keyError g), ⟨st, tr⟩) := by
      simp [enterScopeT, hent]
    rw [List.nil_append,
      nestedEnter_cons_err tbl _ rest ⟨st, tr⟩ _ ⟨st, tr⟩ hentT]
    simp [entersSnaps, entersStore]
  | cons m pre ih =>
    intro st tr hok g w rest hexp hg
    simp only [scopesOK, Bool.and_eq_true] at hok
    obtain ⟨hm, hrest⟩ := hok
    cases m with
    | setOutputS groups which => simp [scopeOKB] at hm
    | setenvS kvs =>
      have hent : enterScope tbl (.setenvS kvs) st =
          (.ok (.envSnap (overrideEnter kvs [] st.env).1),
            { st with env := (overrideEnter kvs [] st.env).2 }) := rfl
      have hrest' : scopesOK tbl false pre
          { st with env := (overrideEnter kvs [] st.env).2 } = true := by
        rw [hent] at hrest
        exact hrest
      have hg' : lookupKey
          (Store.mk (overrideEnter kvs [] st.env).2 st.output).output g = none := hg
      rw [List.cons_append,
        nestedEnter_cons_ok tbl _ (pre ++ (Scope.setOutputS [g] w) :: rest) ⟨st, tr⟩
          _ ⟨{ st with env := (overrideEnter kvs [] st.env).2 },
            tr ++ [Evt.enterEv (.envSnap (overrideEnter kvs [] st.env).1)]⟩
          (enterScopeT_of_enter tbl _ ⟨st, tr⟩ _ _ hent)]
      rw [ih { st with env := (overrideEnter kvs [] st.env).2 }
        (tr ++ [Evt.enterEv (.envSnap (overrideEnter kvs [] st.env).1)])
        hrest' g w rest hexp hg']
      simp only [entersSnaps, entersStore, hent]
      simp [List.append_assoc]

theorem unwind_cons (snap : Snap) (snaps : List Snap) (exc : Bool) (rs : RunSt) :
    unwind (snap :: snaps) exc rs = exitScopeT snap exc (unwind snaps exc rs) := by
  simp [unwind, List.reverse_cons, List.foldl_append]

theorem unwind_restores (tbl : AliasTbl) (pre : List Scope) :
    ∀ (st : Store) (tr : List Evt) (exc : Bool),
      scopesOK tbl (!exc) pre st = true →
      unwind (entersSnaps tbl pre st) exc ⟨entersStore tbl pre st, tr⟩ =
        ⟨st, tr ++ ((entersSnaps tbl pre st).map
          (fun s => Evt.exitEv s exc)).reverse⟩ := by
  induction pre with
  | nil => intro st tr exc _; simp [entersSnaps, entersStore, unwind]
  | cons m pre ih =>
    intro st tr exc hok
    simp only [scopesOK, Bool.and_eq_true] at hok
    obtain ⟨hm, hrest⟩ := hok
    cases m with
    | setenvS kvs =>
      simp only [scopeOKB, Bool.and_eq_true, List.all_eq_true] at hm
      obtain ⟨hnd, hp⟩ := hm
      have hent : enterScope tbl (.setenvS kvs) st =
          (.ok (.envSnap (overrideEnter kvs [] st.env).1),
            { st with env := (overrideEnter kvs [] st.env).2 }) := rfl
      have hrest' : scopesOK tbl (!exc) pre
          { st with env := (overrideEnter kvs [] st.env).2 } = true := by
        rw [hent] at hrest
        exact hrest
      simp only [entersSnaps, entersStore, hent]
      rw [unwind_cons, ih { st with env := (overrideEnter kvs [] st.env).2 } tr exc hrest']
      simp only [exitScopeT]
      rw [setenv_exit_restore kvs st exc hnd hp]
      simp [List.append_assoc]
    | setOutputS groups which =>
      have hexc : exc = false := by
        cases exc with
        | false => rfl
        | true => simp [scopeOKB] at hm
      subst hexc
      simp only [scopeOKB, Bool.and_eq_true, List.all_eq_true] at hm
      have hent := enterScope_setOutput tbl groups which st hm.2
      have hrest' : scopesOK tbl (!false) pre
          { st with output := (overrideEnter
            ((expand_aliases tbl groups).map (fun g => (g, which))) [] st.output).2 }
          = true := by
        rw [hent] at hrest
        exact hrest
      simp only [entersSnaps, entersStore, hent]
      rw [unwind_cons, ih { st with output := (overrideEnter
            ((expand_aliases tbl groups).map (fun g => (g, which))) [] st.output).2 }
        tr false hrest']
      simp only [exitScopeT]
      rw [setOutput_exit_restore tbl groups which st hm.2]
      simp [List.append_assoc]

theorem runNestedCM_palindrome (tbl : AliasTbl) (ms : List Scope) (st : Store)
    (tr : List Evt) (r : Option PyErr) (h : scopesOK tbl r.isNone ms st = true) :
    runNestedCM tbl ms (bodyRet r) ⟨st, tr⟩ =
      (retOf r, ⟨st, (tr ++ (entersSnaps tbl ms st).map Evt.enterEv) ++
        ((entersSnaps tbl ms st).map (fun s => Evt.exitEv s r.isSome)).reverse⟩) := by
  have henter := nestedEnter_ok tbl ms st tr r.isNone h
  simp only [runNestedCM]
  rw [henter]
  cases r with
  | none =>
    simp only [bodyRet, retOf]
    rw [unwind_restores tbl ms st
      (tr ++ (entersSnaps tbl ms st).map Evt.enterEv) false h]
    rfl
  | some e =>
    simp only [bodyRet, retOf]
    have hfalse : scopesOK tbl (!true) ms st = true := h
    rw [unwind_restores tbl ms st
      (tr ++ (entersSnaps tbl ms st).map Evt.enterEv) true hfalse]
    rfl

theorem runNestedCM_enterFail (tbl : AliasTbl) (pre : List Scope) (st : Store)
    (tr : List Evt) (g : String) (w : Bool) (rest : List Scope) (body : Body)
    (hok : scopesOK tbl false pre st = true)
    (hexp : expand_aliases tbl [g] = [g])
    (hg : lookupKey st.output g = none) :
    runNestedCM tbl (pre ++ (Scope.setOutputS [g] w) :: rest) body ⟨st, tr⟩ =
      (.error (.keyError g),
        ⟨st, (tr ++ (entersSnaps tbl pre st).map Evt.enterEv) ++
          ((entersSnaps tbl pre st).map (fun s => Evt.exitEv s true)).reverse⟩) := by
  have henter := nestedEnter_fail tbl pre st tr hok g w rest hexp hg
  simp only [runNestedCM]
  rw [henter]
  dsimp only
  have hfalse : scopesOK tbl (!true) pre st = true := hok
  rw [unwind_restores tbl pre st
    (tr ++ (entersSnaps tbl pre st).map Evt.enterEv) true hfalse]
/-! Claim theorems. -/

/-- C4: rendering an environment variable folds its stored
`(value, behaviour, separator)` triples in insertion order starting from the
literal `$VAR` reference: `append` yields `result + separator + quoted(value)`,
`prepend` yields `quoted(value) + separator + result`, and any other behaviour
(`replace`) discards the prior folding and uses `quoted(value)` directly; in
particular rendering `FOO` with triples
`[("a", "append", "/"), ("b", "prepend", ":")]` yields `FOO="b":$FOO/"a"`. -/
theorem c4_stringify_fold :
    (∀ (s : String) (ts : List (String × String × String)) (v sep : String),
        foldTriples s (ts ++ [(v, "append", sep)]) =
          foldTriples s ts ++ sep ++ quote v) ∧
    (∀ (s : String) (ts : List (String × String × String)) (v sep : String),
        foldTriples s (ts ++ [(v, "prepend", sep)]) =
          quote v ++ sep ++ foldTriples s ts) ∧
    (∀ (s : String) (ts : List (String × String × String)) (v b sep : String),
        b ≠ "append" → b ≠ "prepend" →
        foldTriples s (ts ++ [(v, b, sep)]) = quote v) ∧
    stringify_env_var "FOO"
      ⟨[("$FOO", .triples [("a", "append", "/"), ("b", "prepend", ":")])], []⟩ =
      "FOO=\"b\":$FOO/\"a\"" := by
  refine ⟨?_, ?_, ?_, ?_⟩
  · intro s ts v sep
    simp [foldTriples, List.foldl_append, foldStep]
  · intro s ts v sep
    simp [foldTriples, List.foldl_append, foldStep]
  · intro s ts v b sep h1 h2
    simp [foldTriples, List.foldl_append, foldStep, h1, h2]
  · rfl

/-- C4 witness: the `replace` leg of the fold at a concrete behaviour string,
and the two directed legs at concrete inputs. -/
theorem c4_stringify_fold_witness :
    foldTriples "$P" ([] ++ [("x", "append", ":")]) = "$P" ++ ":" ++ quote "x" ∧
    foldTriples "$P" ([] ++ [("x", "prepend", ":")]) = quote "x" ++ ":" ++ "$P" ∧
    foldTriples "$P" ([("y", "append", ":")] ++ [("x", "replace", ":")]) = quote "x" :=
  ⟨c4_stringify_fold.1 "$P" [] "x" ":",
   c4_stringify_fold.2.1 "$P" [] "x" ":",
   c4_stringify_fold.2.2.1 "$P" [("y", "append", ":")] "x" "replace" ":"
     (by decide) (by decide)⟩

/-- C5: calling the environment-variable accumulator with a value and a
behaviour outside `{append, prepend, replace}` raises `ValueError` before
anything else happens: no scope value is produced (so none can be entered) and
the call performs no store mutation (`envManagerCall` never writes). -/
theorem c5_invalid_behaviour (st : Store) (var v behaviour sep : String)
    (reset : Bool) (h1 : behaviour ≠ "append") (h2 : behaviour ≠ "prepend")
    (h3 : behaviour ≠ "replace") :
    envManagerCall st var (some v) behaviour sep reset =
      .error (.valueError ("Unknown behaviour: " ++ behaviour)) := by
  simp [envManagerCall, h1, h2, h3]

/-- C5 witness: a concrete invalid behaviour string. -/
theorem c5_invalid_behaviour_witness :
    envManagerCall ⟨[], []⟩ "PATH" (some "x") "sideways" ":" false =
      .error (.valueError "Unknown behaviour: sideways") :=
  c5_invalid_behaviour ⟨[], []⟩ "PATH" "x" "sideways" ":" false
    (by decide) (by decide) (by decide)

/-- C9: entering `prefix(command)` sets `command_prefixes` to the previous
list with the single given command appended at the end, via a single-key
`_setenv` override. -/
theorem c9_command_prefixes_append (tbl : AliasTbl) (st : Store) (cmd : String)
    (l : List String)
    (h : lookupKey st.env "command_prefixes" = some (.strList l)) :
    cmdPrefixCm cmd st =
      .ok (.setenvS [("command_prefixes", .strList (l ++ [cmd]))]) ∧
    lookupKey (enterScope tbl
        (.setenvS [("command_prefixes", .strList (l ++ [cmd]))]) st).2.env
      "command_prefixes" = some (.strList (l ++ [cmd])) := by
  constructor
  · simp [cmdPrefixCm, h]
  · have he : (overrideEnter [("command_prefixes", Value.strList (l ++ [cmd]))]
        [] st.env).2 = setKey st.env "command_prefixes" (.strList (l ++ [cmd])) := by
      simp [overrideEnter, h]
    rw [enterScope_setenv]
    dsimp only
    rw [he, lookup_setKey]
    simp

/-- C9 witness: appending to a concrete one-element prefix list. -/
theorem c9_command_prefixes_append_witness :
    cmdPrefixCm "source s" ⟨[("command_prefixes", .strList ["workon venv"])], []⟩ =
      .ok (.setenvS [("command_prefixes",
        .strList (["workon venv"] ++ ["source s"]))]) ∧
    lookupKey (enterScope []
        (.setenvS [("command_prefixes", .strList (["workon venv"] ++ ["source s"]))])
        ⟨[("command_prefixes", .strList ["workon venv"])], []⟩).2.env
      "command_prefixes" = some (.strList (["workon venv"] ++ ["source s"])) :=
  c9_command_prefixes_append [] ⟨[("command_prefixes", .strList ["workon venv"])], []⟩
    "source s" ["workon venv"] (by decide)

/-- C10: for every argument pair, constructing the `path(path, behavior)`
context manager fails with a `NameError` on the unresolvable name `warn`
before any `_setenv` scope is constructed, so a `path` scope can never be
entered. -/
theorem c10_path_name_error (p b : String) :
    path_cm p b = .error (.nameError "warn") := by
  have h : resolvesInContextManagers "warn" = false := by decide
  simp [path_cm, h]

/-- C3 counterexample: entering and exiting a `_setenv` scope that sets a key
absent from `env` leaves the key present, bound to the override value — not
absent as the claim states (`env.update(previous)` never deletes). -/
theorem c3_counterexample :
    lookupKey ((withScope [] (.setenvS [("new_key", .str "x")]) (bodyRet none)
        ⟨⟨[], []⟩, []⟩).2.store.env) "new_key" = some (.str "x") ∧
    some (Value.str "x") ≠ none := by
  exact ⟨rfl, by decide⟩

/-- C3 (amended): for a key absent from `env` before entry, exiting the scope
leaves the key present and bound to the override value (only previously
present keys are restored; the restoration never deletes). -/
theorem c3_absent_key_stays (tbl : AliasTbl) (st : Store) (k : String)
    (v : Value) (r : Option PyErr) (h : lookupKey st.env k = none) :
    (withScope tbl (.setenvS [(k, v)]) (bodyRet r) ⟨st, []⟩).2.store.env =
      setKey st.env k v ∧
    lookupKey
      (withScope tbl (.setenvS [(k, v)]) (bodyRet r) ⟨st, []⟩).2.store.env k =
      some v := by
  have he : overrideEnter [(k, v)] [] st.env = ([], setKey st.env k v) := by
    simp [overrideEnter, h]
  have hent : enterScope tbl (.setenvS [(k, v)]) st =
      (.ok (.envSnap []), { st with env := setKey st.env k v }) := by
    rw [enterScope_setenv, he]
  have hrun : (withScope tbl (.setenvS [(k, v)]) (bodyRet r) ⟨st, []⟩).2.store.env =
      setKey st.env k v := by
    rw [withScope, enterScopeT_of_enter tbl _ ⟨st, []⟩ _ _ hent]
    cases r with
    | none => simp [bodyRet, retOf, exitScopeT, exitScope, updateMap]
    | some e => simp [bodyRet, retOf, exitScopeT, exitScope, updateMap]
  refine ⟨hrun, ?_⟩
  rw [hrun, lookup_setKey]
  simp

/-- C3 witness: a concrete store without the key, on the normal exit path. -/
theorem c3_absent_key_stays_witness :
    (withScope [] (.setenvS [("warn_only", .boolV true)]) (bodyRet none)
        ⟨⟨[("user", .str "bob")], []⟩, []⟩).2.store.env =
      setKey [("user", .str "bob")] "warn_only" (.boolV true) ∧
    lookupKey (withScope [] (.setenvS [("warn_only", .boolV true)]) (bodyRet none)
        ⟨⟨[("user", .str "bob")], []⟩, []⟩).2.store.env "warn_only" =
      some (.boolV true) :=
  c3_absent_key_stays [] ⟨[("user", .str "bob")], []⟩ "warn_only" (.boolV true)
    none (by decide)

/-- C2: at the failing input — `show('debug')` around a block that raises,
starting from `output = {debug: False}` — the code propagates the exception
but leaves `output['debug'] = True`: `_set_output` has no `try/finally`
around its `yield`, so the restoration promised by the claim (and by the
function's own docstring) is skipped on the exceptional exit. -/
theorem c2_show_failure_leaks :
    withScope [] (show_cm ["debug"]) (bodyRet (some (.userError "boom")))
        ⟨⟨[], [("debug", false)]⟩, []⟩ =
      (.error (.userError "boom"),
        ⟨⟨[], [("debug", true)]⟩,
          [.enterEv (.outSnap [("debug", false)]),
           .exitEv (.outSnap [("debug", false)]) true]⟩) := rfl

/-- C1 counterexample: a scope built from `settings` with one keyword override
on a key absent from `env`, exiting normally, leaves the config store
different from its state before the scope was entered — the fresh key stays
set — refuting the bit-for-bit restoration claim as stated. -/
theorem c1_counterexample :
    (settingsRun [] [] [("warn_only", .boolV true)] (bodyRet none)
        ⟨⟨[], []⟩, []⟩).2.store = ⟨[("warn_only", .boolV true)], []⟩ ∧
    (⟨[("warn_only", .boolV true)], []⟩ : Store) ≠ (⟨[], []⟩ : Store) :=
  ⟨rfl, by decide⟩

/-- C1 (amended): for every nest of scope statements (built from `show`,
`hide`, `settings`, `cd`, `prefix` or the per-variable accumulator) in which
each `_setenv`-built scope overrides only keys present in `env` at its entry,
and `show`/`hide` scopes toggle only groups present in `output` and occur only
when the innermost block completes normally, the store after all scopes exit —
normally or via a raised failure — is identical to its state before the
outermost entry, and the event trace is exactly one entry per scope followed
by exactly one restoring exit per scope in reverse (LIFO) order. -/
theorem c1_nested_scopes_restore (tbl : AliasTbl) (bs : List ScopeBuilder)
    (st : Store) (r : Option PyErr) (h : buildersOK tbl r.isNone bs st = true) :
    ∃ snaps : List Snap, snaps.length = bs.length ∧
      nestRun tbl bs (bodyRet r) ⟨st, []⟩ =
        (retOf r, ⟨st, snaps.map Evt.enterEv ++
          (snaps.map (fun s => Evt.exitEv s r.isSome)).reverse⟩) := by
  obtain ⟨snaps, hlen, hrun⟩ := nestRun_palindrome tbl bs st [] r h
  refine ⟨snaps, hlen, ?_⟩
  simpa using hrun

/-- C1 witness: a four-deep nest — a `settings` keyword override, a `cd`, a
`prefix` and a `show` — over a store holding all the touched keys, with the
innermost block completing normally. -/
theorem c1_nested_scopes_restore_witness :
    ∃ snaps : List Snap, snaps.length = 4 ∧
      nestRun []
        [fun _ => .ok (.setenvS [("warn_only", .boolV true)]),
         fun st => cd "a" st,
         fun st => cmdPrefixCm "workon venv" st,
         fun _ => .ok (show_cm ["debug"])]
        (bodyRet none)
        ⟨⟨[("warn_only", .boolV false), ("cwd", .str "/home"),
           ("command_prefixes", .strList [])], [("debug", false)]⟩, []⟩ =
      (retOf none,
        ⟨⟨[("warn_only", .boolV false), ("cwd", .str "/home"),
           ("command_prefixes", .strList [])], [("debug", false)]⟩,
          snaps.map Evt.enterEv ++
            (snaps.map (fun s => Evt.exitEv s false)).reverse⟩) :=
  c1_nested_scopes_restore []
    [fun _ => .ok (.setenvS [("warn_only", .boolV true)]),
     fun st => cd "a" st,
     fun st => cmdPrefixCm "workon venv" st,
     fun _ => .ok (show_cm ["debug"])]
    ⟨[("warn_only", .boolV false), ("cwd", .str "/home"),
      ("command_prefixes", .strList [])], [("debug", false)]⟩
    none (by decide)

/-- C8 counterexample: running enter-then-exit of the same single-key
`_setenv` override set twice in serial succession, starting from a store
without the key, does not return the store to its initial state — the fresh
key remains after both runs. -/
theorem c8_counterexample :
    (withScope [] (.setenvS [("c8_fresh", .str "v")]) (bodyRet none)
        ((withScope [] (.setenvS [("c8_fresh", .str "v")]) (bodyRet none)
          ⟨⟨[], []⟩, []⟩).2)).2.store = ⟨[("c8_fresh", .str "v")], []⟩ ∧
    (⟨[("c8_fresh", .str "v")], []⟩ : Store) ≠ (⟨[], []⟩ : Store) :=
  ⟨rfl, by decide⟩

/-- C8 (amended): for an override set with pairwise-distinct keys that are all
present in `env`, entering and exiting the scope twice in immediate serial
succession (not nested) leaves the store identical to its state before the
first of the two runs — and already after the first run. -/
theorem c8_serial_restore (tbl : AliasTbl) (kvs : List (String × Value))
    (st : Store) (hnd : nodupKeysB kvs = true)
    (hp : ∀ p ∈ kvs, (lookupKey st.env p.1).isSome) :
    (withScope tbl (.setenvS kvs) (bodyRet none)
        ((withScope tbl (.setenvS kvs) (bodyRet none) ⟨st, []⟩).2)).2.store = st ∧
    (withScope tbl (.setenvS kvs) (bodyRet none) ⟨st, []⟩).2.store = st := by
  have hsingle : ∀ tr : List Evt,
      withScope tbl (.setenvS kvs) (bodyRet none) ⟨st, tr⟩ =
        (.ok (), ⟨st, tr ++
          [Evt.enterEv (.envSnap (overrideEnter kvs [] st.env).1),
           Evt.exitEv (.envSnap (overrideEnter kvs [] st.env).1) false]⟩) := by
    intro tr
    rw [withScope, enterScopeT_of_enter tbl _ ⟨st, tr⟩ _ _ (enterScope_setenv tbl kvs st)]
    dsimp only [bodyRet, retOf]
    simp only [exitScopeT]
    rw [setenv_exit_restore kvs st false hnd hp]
    simp [List.append_assoc]
  constructor
  · rw [hsingle []]
    dsimp only
    rw [hsingle _]
  · rw [hsingle []]

/-- C8 witness: a one-key override set over a store holding the key. -/
theorem c8_serial_restore_witness :
    (withScope [] (.setenvS [("user", .str "alice")]) (bodyRet none)
        ((withScope [] (.setenvS [("user", .str "alice")]) (bodyRet none)
          ⟨⟨[("user", .str "root")], []⟩, []⟩).2)).2.store =
      ⟨[("user", .str "root")], []⟩ ∧
    (withScope [] (.setenvS [("user", .str "alice")]) (bodyRet none)
        ⟨⟨[("user", .str "root")], []⟩, []⟩).2.store =
      ⟨[("user", .str "root")], []⟩ :=
  c8_serial_restore [] [("user", .str "alice")] ⟨[("user", .str "root")], []⟩
    (by decide) (by decide)

/-- C6: `cd` joins a relative path onto a truthy current working directory
with a single `/` (after space escaping) and replaces it outright for an
absolute path; nesting `cd "a"` then `cd "b"` from the empty working
directory yields `"a"` then `"a/b"` inside the scopes, and exiting restores
`"a"` and then the empty value, exactly. -/
theorem c6_cd_nesting :
    (∀ (st : Store) (d p : String),
        lookupKey st.env "cwd" = some (.str d) → d ≠ "" →
        startsWithSlash (escapeSpaces p) = false →
        cd p st = .ok (.setenvS [("cwd", .str (d ++ "/" ++ escapeSpaces p))])) ∧
    (∀ (st : Store) (p : String),
        startsWithSlash (escapeSpaces p) = true →
        cd p st = .ok (.setenvS [("cwd", .str (escapeSpaces p))])) ∧
    (cd "a" ⟨[("cwd", .str "")], []⟩ = .ok (.setenvS [("cwd", .str "a")]) ∧
     enterScope [] (.setenvS [("cwd", .str "a")]) ⟨[("cwd", .str "")], []⟩ =
       (.ok (.envSnap [("cwd", .str "")]), ⟨[("cwd", .str "a")], []⟩) ∧
     cd "b" ⟨[("cwd", .str "a")], []⟩ = .ok (.setenvS [("cwd", .str "a/b")]) ∧
     enterScope [] (.setenvS [("cwd", .str "a/b")]) ⟨[("cwd", .str "a")], []⟩ =
       (.ok (.envSnap [("cwd", .str "a")]), ⟨[("cwd", .str "a/b")], []⟩) ∧
     exitScope (.envSnap [("cwd", .str "a")]) false ⟨[("cwd", .str "a/b")], []⟩ =
       ⟨[("cwd", .str "a")], []⟩ ∧
     exitScope (.envSnap [("cwd", .str "")]) false ⟨[("cwd", .str "a")], []⟩ =
       ⟨[("cwd", .str "")], []⟩) := by
  refine ⟨?_, ?_, rfl, rfl, rfl, rfl, rfl, rfl⟩
  · intro st d p h1 hd hp
    have hde : d.isEmpty = false := by
      cases hdd : d.isEmpty
      · rfl
      · exact absurd ((String.isEmpty_iff d).mp hdd) hd
    simp [cd, h1, valueTruthy, hde, hp]
  · intro st p hp
    cases hl : lookupKey st.env "cwd" with
    | none => simp [cd, hl]
    | some v => simp [cd, hl, hp]

/-- C6 witness: a relative path with a space joined under `/var`, and an
absolute path replacing the working directory outright. -/
theorem c6_cd_nesting_witness :
    cd "www x" ⟨[("cwd", .str "/var")], []⟩ =
      .ok (.setenvS [("cwd", .str ("/var" ++ "/" ++ escapeSpaces "www x"))]) ∧
    cd "/opt" ⟨[("cwd", .str "/var")], []⟩ =
      .ok (.setenvS [("cwd", .str (escapeSpaces "/opt"))]) :=
  ⟨c6_cd_nesting.1 ⟨[("cwd", .str "/var")], []⟩ "/var" "www x"
      (by decide) (by decide) (by decide),
   c6_cd_nesting.2.1 ⟨[("cwd", .str "/var")], []⟩ "/opt" (by decide)⟩

/-- C7 counterexample: in `settings(show('debug'), show('nosuch'))` over a
store whose `output` lacks the group `nosuch`, entering the second scope
fails; the first scope's exit is invoked on the unwind, but — contrary to the
claim's "no residual override" — `output['debug']` is left `True` when the
failure propagates, because `_set_output` does not restore on an exceptional
exit. -/
theorem c7_counterexample :
    (settingsRun [] [show_cm ["debug"], show_cm ["nosuch"]] [] (bodyRet none)
        ⟨⟨[], [("debug", false)]⟩, []⟩).1 = .error (.keyError "nosuch") ∧
    (settingsRun [] [show_cm ["debug"], show_cm ["nosuch"]] [] (bodyRet none)
        ⟨⟨[], [("debug", false)]⟩, []⟩).2.store.output = [("debug", true)] ∧
    ([("debug", true)] : List (String × Bool)) ≠ [("debug", false)] :=
  ⟨rfl, rfl, by decide⟩

/-- C7 (amended): `settings(*scopes, **overrides)` composes its argument
scopes left-to-right with the keyword overrides merged into one additional
`_setenv` override set entered last, and exits all entered scopes in strict
reverse order.  If entering a later scope fails, every previously entered
scope's exit is invoked, in reverse order, before the failure propagates;
previously entered `_setenv`-built scopes over present keys are then fully
restored with no residual override (a previously entered `show`/`hide` scope,
however, does not restore on this exceptional unwind — see C2). -/
theorem c7_settings_unwind :
    (∀ (tbl : AliasTbl) (pre : List Scope) (st : Store) (g : String) (w : Bool)
        (rest : List Scope) (kwargs : List (String × Value)) (body : Body),
        scopesOK tbl false pre st = true →
        expand_aliases tbl [g] = [g] →
        lookupKey st.output g = none →
        settingsRun tbl (pre ++ Scope.setOutputS [g] w :: rest) kwargs body
            ⟨st, []⟩ =
          (.error (.keyError g),
            ⟨st, (entersSnaps tbl pre st).map Evt.enterEv ++
              ((entersSnaps tbl pre st).map
                (fun s => Evt.exitEv s true)).reverse⟩)) ∧
    (∀ (tbl : AliasTbl) (args : List Scope) (kwargs : List (String × Value))
        (st : Store),
        scopesOK tbl true (settingsManagers args kwargs) st = true →
        settingsRun tbl args kwargs (bodyRet none) ⟨st, []⟩ =
          (.ok (), ⟨st,
            (entersSnaps tbl (settingsManagers args kwargs) st).map Evt.enterEv ++
              ((entersSnaps tbl (settingsManagers args kwargs) st).map
                (fun s => Evt.exitEv s false)).reverse⟩)) := by
  constructor
  · intro tbl pre st g w rest kwargs body hok hexp hg
    have hlist : settingsManagers (pre ++ Scope.setOutputS [g] w :: rest) kwargs =
        pre ++ Scope.setOutputS [g] w ::
          (rest ++ (if kwargs.isEmpty then [] else [Scope.setenvS kwargs])) := by
      simp [settingsManagers, List.append_assoc]
    rw [settingsRun, hlist]
    have hfail := runNestedCM_enterFail tbl pre st [] g w
      (rest ++ (if kwargs.isEmpty then [] else [Scope.setenvS kwargs]))
      body hok hexp hg
    simpa using hfail
  · intro tbl args kwargs st hok
    have hpal := runNestedCM_palindrome tbl (settingsManagers args kwargs) st []
      none hok
    rw [settingsRun]
    simpa using hpal

/-- C7 witness: a `settings` whose second scope names an absent output group
(the first, a keyword-style override, is fully unwound before the failure
propagates), and a normally completing `settings(hide('debug'),
warn_only=True)` showing the keyword override entered last and the reverse
exit order. -/
theorem c7_settings_unwind_witness :
    settingsRun [] ([Scope.setenvS [("user", .str "alice")]] ++
        Scope.setOutputS ["nosuch"] true :: []) [("warn_only", .boolV true)]
        (bodyRet none) ⟨⟨[("user", .str "root")], [("debug", false)]⟩, []⟩ =
      (.error (.keyError "nosuch"),
        ⟨⟨[("user", .str "root")], [("debug", false)]⟩,
          (entersSnaps [] [Scope.setenvS [("user", .str "alice")]]
            ⟨[("user", .str "root")], [("debug", false)]⟩).map Evt.enterEv ++
            ((entersSnaps [] [Scope.setenvS [("user", .str "alice")]]
              ⟨[("user", .str "root")], [("debug", false)]⟩).map
                (fun s => Evt.exitEv s true)).reverse⟩) ∧
    settingsRun [] [hide_cm ["debug"]] [("warn_only", .boolV true)]
        (bodyRet none) ⟨⟨[("warn_only", .boolV false)], [("debug", true)]⟩, []⟩ =
      (.ok (), ⟨⟨[("warn_only", .boolV false)], [("debug", true)]⟩,
        (entersSnaps [] (settingsManagers [hide_cm ["debug"]]
            [("warn_only", .boolV true)])
          ⟨[("warn_only", .boolV false)], [("debug", true)]⟩).map Evt.enterEv ++
          ((entersSnaps [] (settingsManagers [hide_cm ["debug"]]
              [("warn_only", .boolV true)])
            ⟨[("warn_only", .boolV false)], [("debug", true)]⟩).map
              (fun s => Evt.exitEv s false)).reverse⟩) :=
  ⟨c7_settings_unwind.1 [] [Scope.setenvS [("user", .str "alice")]]
      ⟨[("user", .str "root")], [("debug", false)]⟩ "nosuch" true []
      [("warn_only", .boolV true)] (bodyRet none)
      (by decide) (by decide) (by decide),
   c7_settings_unwind.2 [] [hide_cm ["debug"]] [("warn_only", .boolV true)]
      ⟨[("warn_only", .boolV false)], [("debug", true)]⟩ (by decide)⟩

end Fabric
